import Mathlib

/-!
Shallow embedding of the SVG-to-embroidery conversion core (`main.py`):
curve sampling, the concentric-offset fill engine, stroke stitching,
pattern assembly (`convert_svg_to_dst`), and the bitmap raster-scan fill
(`convert_svg_to_dst_bitmap`).  Machine reals are idealised as `ℝ`
(the raster part, which only uses integer pixel positions and rational
scaling, is kept over `ℚ`/`ℕ`).
-/

/-- A shape as the core reads it: a path, given by its arc length
(`path.length()`) and parametric point function (`path.point(t)` with the
complex value split into real/imaginary parts), together with the optional
`stroke`/`fill` attribute tokens (`Option.none` models an absent key, so
`attr.get(key, 'none')` yields the default). -/
structure Shape where
  len : ℝ
  point : ℝ → ℝ × ℝ
  stroke : Option String
  fill : Option String

/-- Stitch commands accepted by the pattern: `move_abs`, `stitch_abs`,
`color_change` and the terminal `end()`. -/
inductive Cmd where
  | move (p : ℝ × ℝ)
  | stitch (p : ℝ × ℝ)
  | colorChange
  | patEnd

/-- Thread descriptor attached to each color change
(the `thread_info` dictionaries of the source). -/
structure Thread where
  hex : String
  description : String
  brand : String
  catalog : String
  weight : String
  color : ℕ
deriving DecidableEq

/-- Failure signal for a conversion that produces no pattern.
The source signals this by an early `return False`. -/
inductive ConvErr where
  | emptyInput
deriving DecidableEq

/-- Value of one hexadecimal digit character, as accepted by
Python `int(_, 16)`. -/
def hexDigitVal (c : Char) : Option ℕ :=
  if '0' ≤ c ∧ c ≤ '9' then some (c.toNat - 48)
  else if 'a' ≤ c ∧ c ≤ 'f' then some (c.toNat - 87)
  else if 'A' ≤ c ∧ c ≤ 'F' then some (c.toNat - 55)
  else none

/-- Hexadecimal value of a digit string; `none` on any invalid digit
(Python raises `ValueError` there). -/
def hexValue (cs : List Char) : Option ℕ :=
  cs.foldl (fun acc c =>
    match acc, hexDigitVal c with
    | some v, some d => some (16 * v + d)
    | _, _ => none) (some 0)

/-- `parse_hex_color`: `int(color_str[1:], 16)` when the token starts with
`#`, with fallback `0x000000` on a parse error or a non-hex token. -/
def parse_hex_color (s : String) : ℕ :=
  if s.startsWith "#" then (hexValue (s.toList.drop 1)).getD 0 else 0

/-- The `color_map` table of named colors. -/
def color_map : List (String × ℕ) :=
  [("black", 0x000000), ("red", 0xFF0000), ("green", 0x008000),
   ("blue", 0x0000FF), ("purple", 0x800080), ("pink", 0xFFC0CB),
   ("orange", 0xFFA500), ("cyan", 0x00FFFF), ("brown", 0xA52A2A),
   ("magenta", 0xFF00FF), ("darkgreen", 0x006400), ("navy", 0x000080),
   ("gold", 0xFFD700)]

/-- Color token resolution used in both the fill and the stroke branch:
hex strings through `parse_hex_color`, otherwise `color_map.get(color, 0)`. -/
def resolveColor (tok : String) : ℕ :=
  if tok.startsWith "#" then parse_hex_color tok
  else (color_map.lookup tok).getD 0

/-- Python truthiness test `color and color != 'none'` applied to
`attr.get(key, 'none')`: an absent attribute, the empty string and the
literal `"none"` all count as not present. -/
def colorPresent : Option String → Bool
  | none => false
  | some s => !(s == "") && !(s == "none")

/-- Six-digit zero-padded uppercase hexadecimal rendering, `f"{n:06X}"`. -/
def hex6 (n : ℕ) : String :=
  let ds := (Nat.toDigits 16 n).map Char.toUpper
  String.mk (List.replicate (6 - ds.length) '0' ++ ds)

/-- Three-digit zero-padded decimal rendering, `f"{n:03d}"`. -/
def pad3 (n : ℕ) : String :=
  let s := toString n
  String.mk (List.replicate (3 - s.length) '0' ++ s.toList)

/-- The `fill_thread_info` dictionary built for shape index `i` (0-based)
with fill token `tok` resolved to color `col`. -/
def mkFillThread (i : ℕ) (tok : String) (col : ℕ) : Thread :=
  ⟨"#" ++ hex6 col, "Fill " ++ tok, "SVG", pad3 (i + 1) ++ "F", "40", col⟩

/-- The `stroke_thread_info` dictionary built for shape index `i`. -/
def mkStrokeThread (i : ℕ) (tok : String) (col : ℕ) : Thread :=
  ⟨"#" ++ hex6 col, "Stroke " ++ tok, "SVG", pad3 (i + 1) ++ "S", "40", col⟩

/-- Number of stitch commands in a command list; the source keeps this as
the running `total_stitches` counter, incremented at each `stitch_abs`. -/
def stitchCount : List Cmd → ℕ
  | [] => 0
  | Cmd.stitch _ :: r => stitchCount r + 1
  | _ :: r => stitchCount r

noncomputable section

/-- Sample count `max(int(path_length / step_size), m)`; Python `int`
truncates toward zero, which on the nonnegative lengths at hand is the
floor (for a negative quotient both collapse to `m` under `max`). -/
def nSamples (len step : ℝ) (m : ℕ) : ℕ :=
  max (Int.toNat ⌊len / step⌋) m

/-- Coordinate transform applied to every sampled point:
`x = (point.real - center_x) * scale`, `y = (point.imag - center_y) * scale`. -/
def transf (cx cy sc : ℝ) (p : ℝ × ℝ) : ℝ × ℝ :=
  ((p.1 - cx) * sc, (p.2 - cy) * sc)

/-- The sampling loop `for j in range(samples + 1): t = j / samples; ...`:
`n + 1` transformed points at parameters `t = j / n`. -/
def samplePts (pt : ℝ → ℝ × ℝ) (cx cy sc : ℝ) (n : ℕ) : List (ℝ × ℝ) :=
  (List.range (n + 1)).map (fun (j : ℕ) => transf cx cy sc (pt ((j : ℝ) / (n : ℝ))))

/-- Euclidean distance between two sampled points. -/
def ptDist (a b : ℝ × ℝ) : ℝ :=
  Real.sqrt ((a.1 - b.1) ^ 2 + (a.2 - b.2) ^ 2)

/-- Centroid of a contour: arithmetic mean of all its points
(`sum(p[0] for p in fill_points) / len(fill_points)` and likewise for y). -/
def centroidPt (pts : List (ℝ × ℝ)) : ℝ × ℝ :=
  ((pts.map Prod.fst).sum / (pts.length : ℝ),
   (pts.map Prod.snd).sum / (pts.length : ℝ))

/-- Per-point step of one concentric layer: with `dx, dy` the vector to the
centroid and `length` its norm, keep the point moved inward by `offset`
(`factor = offset / length`) when `length > offset`, else drop it. -/
def offPt (c : ℝ × ℝ) (o : ℝ) (p : ℝ × ℝ) : Option (ℝ × ℝ) :=
  let dx := c.1 - p.1
  let dy := c.2 - p.2
  let l := Real.sqrt (dx * dx + dy * dy)
  if o < l then some (p.1 + dx * (o / l), p.2 + dy * (o / l)) else none

/-- Points retained by one concentric layer at offset `o`. -/
def layerPts (c : ℝ × ℝ) (o : ℝ) (pts : List (ℝ × ℝ)) : List (ℝ × ℝ) :=
  pts.filterMap (offPt c o)

/-- Commands emitted for one layer: only when it retains more than 3
points, a `move_abs` to its first point then `stitch_abs` through the
rest. -/
def layerCmdsOf (lp : List (ℝ × ℝ)) : List Cmd :=
  if 3 < lp.length then
    match lp with
    | [] => []
    | q :: rs => Cmd.move q :: rs.map Cmd.stitch
  else []

/-- The concentric-offset fill engine: for `layer = 0 .. layers - 1`,
offset `layer * d` toward the centroid of the sampled contour, emitting
each sufficiently large layer.  The source fixes `layers = 8` and
`d = 3.0`. -/
def concentricCmds (pts : List (ℝ × ℝ)) (layers : ℕ) (d : ℝ) : List Cmd :=
  (List.range layers).flatMap (fun layer =>
    layerCmdsOf (layerPts (centroidPt pts) ((layer : ℝ) * d) pts))

/-- Mutable state threaded through the per-shape loop: the coordinate
center `center_x`/`center_y` (initially the SVG canvas center, but
overwritten inside the fill branch) and the `total_stitches` counter. -/
structure ConvSt where
  cx : ℝ
  cy : ℝ
  total : ℕ

/-- Initial state: `center_x = svg_width / 2`, `center_y = svg_height / 2`
for the fixed canvas `1871 x 2208`, zero stitches. -/
def initState : ConvSt := ⟨1871 / 2, 2208 / 2, 0⟩

/-- The fill branch of the per-shape loop: when a fill attribute is
present, add a color change with its thread, sample the contour with
minimum sample count 20 from the current `center_x`/`center_y`, run the
concentric fill, and perform the source's
`center_x = sum(p[0] for p in fill_points) / len(fill_points)`
reassignment, which overwrites the canvas center held in the state with
the contour centroid. -/
def fillPart (step sc : ℝ) (i : ℕ) (sh : Shape) (st : ConvSt) :
    ConvSt × List Cmd × List Thread :=
  if colorPresent sh.fill then
    let tok := sh.fill.getD "none"
    let thr := mkFillThread i tok (resolveColor tok)
    let fp := samplePts sh.point st.cx st.cy sc (nSamples sh.len step 20)
    match fp with
    | [] => (st, [Cmd.colorChange], [thr])
    | q :: rs =>
      let c := centroidPt (q :: rs)
      let body := concentricCmds (q :: rs) 8 3
      (ConvSt.mk c.1 c.2 (st.total + stitchCount body),
        Cmd.colorChange :: body, [thr])
  else (st, [], [])

/-- The stroke branch of the per-shape loop: when a stroke attribute is
present, add a color change with its thread, sample the contour with
minimum sample count 2 from whatever `center_x`/`center_y` hold at that
point, and stitch the outline (`move_abs` to the first point, then
`stitch_abs` through the rest). -/
def strokePart (step sc : ℝ) (i : ℕ) (sh : Shape) (st1 : ConvSt) :
    ConvSt × List Cmd × List Thread :=
  if colorPresent sh.stroke then
    let tok := sh.stroke.getD "none"
    let thr := mkStrokeThread i tok (resolveColor tok)
    let sp := samplePts sh.point st1.cx st1.cy sc (nSamples sh.len step 2)
    match sp with
    | [] => (st1, [Cmd.colorChange], [thr])
    | q :: rs =>
      (ConvSt.mk st1.cx st1.cy (st1.total + rs.length),
        Cmd.colorChange :: Cmd.move q :: rs.map Cmd.stitch, [thr])
  else (st1, [], [])

/-- One iteration of the per-shape loop of `convert_svg_to_dst`:
skip zero-length paths, otherwise run the fill branch and then the
stroke branch on the state it leaves behind.  Returns the new state and
the commands and threads contributed by this shape (index `i`). -/
def processShape (step sc : ℝ) (i : ℕ) (sh : Shape) (st : ConvSt) :
    ConvSt × List Cmd × List Thread :=
  if sh.len = 0 then (st, [], [])
  else
    let a := fillPart step sc i sh st
    let b := strokePart step sc i sh a.1
    (b.1, a.2.1 ++ b.2.1, a.2.2 ++ b.2.2)

/-- The `for i, path in enumerate(paths)` loop, accumulating commands and
threads in input order while threading the mutable state. -/
def convertGo (step sc : ℝ) : ℕ → ConvSt → List Shape →
    ConvSt × List Cmd × List Thread
  | _, st, [] => (st, [], [])
  | i, st, sh :: rest =>
    let r := processShape step sc i sh st
    let r2 := convertGo step sc (i + 1) r.1 rest
    (r2.1, r.2.1 ++ r2.2.1, r.2.2 ++ r2.2.2)

/-- `convert_svg_to_dst` at the core boundary: fail on an empty shape
list before building anything, otherwise run the per-shape loop from the
initial state and append the terminal `end()`.  The result carries the
command sequence, the thread list and the final `total_stitches`. -/
def convert (step sc : ℝ) (shapes : List Shape) :
    Except ConvErr (List Cmd × List Thread × ℕ) :=
  if shapes.isEmpty then Except.error ConvErr.emptyInput
  else
    let r := convertGo step sc 0 initState shapes
    Except.ok (r.2.1 ++ [Cmd.patEnd], r.2.2, r.1.total)

/-- Command sequence of a successful conversion (empty on failure). -/
def cmdsOf (step sc : ℝ) (shapes : List Shape) : List Cmd :=
  match convert step sc shapes with
  | Except.ok r => r.1
  | Except.error _ => []

/-- Final `total_stitches` of a successful conversion (zero on failure). -/
def totalOf (step sc : ℝ) (shapes : List Shape) : ℕ :=
  match convert step sc shapes with
  | Except.ok r => r.2.2
  | Except.error _ => 0

end

/-- Checker for the stitch-timeline invariant: walking the command list
with a flag that records whether a `move` has occurred since the last
`colorChange` (or since the start), every `stitch` must find the flag
set.  Equivalently, the first coordinate command of the sequence and the
first one after each `colorChange` is a `move`. -/
def coordOk : Bool → List Cmd → Bool
  | _, [] => true
  | _, Cmd.move _ :: r => coordOk true r
  | b, Cmd.stitch _ :: r => b && coordOk b r
  | _, Cmd.colorChange :: r => coordOk false r
  | b, Cmd.patEnd :: r => coordOk b r

/-- Final value of the `coordOk` flag after a command list. -/
def flagAfter : Bool → List Cmd → Bool
  | b, [] => b
  | _, Cmd.move _ :: r => flagAfter true r
  | b, Cmd.stitch _ :: r => flagAfter b r
  | _, Cmd.colorChange :: r => flagAfter false r
  | b, Cmd.patEnd :: r => flagAfter b r

/-- Raster-scan commands of `convert_svg_to_dst_bitmap`; pixel positions
are integers and the world transform is rational. -/
inductive BCmd where
  | bmove (p : ℚ × ℚ)
  | bstitch (p : ℚ × ℚ)
deriving DecidableEq

/-- Pixel classification `b > 150 and r < 100 and g < 100` on an
`(r, g, b)` triple. -/
def isBlue (px : ℕ × ℕ × ℕ) : Bool :=
  150 < px.2.2 && px.1 < 100 && px.2.1 < 100

/-- One step of the left-to-right pixel scan at row `y`: entering a blue
run records its start; leaving one emits the segment `(start, x)` when it
is wider than the 5-pixel minimum, else discards it as noise. -/
def scanStep (img : ℕ → ℕ → ℕ × ℕ × ℕ) (y : ℕ)
    (acc : List (ℕ × ℕ) × Option ℕ) (x : ℕ) : List (ℕ × ℕ) × Option ℕ :=
  if isBlue (img x y) then
    match acc.2 with
    | none => (acc.1, some x)
    | some s => (acc.1, some s)
  else
    match acc.2 with
    | some s => if 5 < x - s then (acc.1 ++ [(s, x)], none) else (acc.1, none)
    | none => (acc.1, none)

/-- Fill segments of one raster row: scan all `x in range(img_width)`,
then close a run still open at the right edge as `(start, img_width)`
when it exceeds the minimum width. -/
def rowSegments (img : ℕ → ℕ → ℕ × ℕ × ℕ) (w y : ℕ) : List (ℕ × ℕ) :=
  let r := (List.range w).foldl (scanStep img y) ([], none)
  match r.2 with
  | some s => if 5 < w - s then r.1 ++ [(s, w)] else r.1
  | none => r.1

/-- Scanned rows `range(0, img_height, fill_spacing)`. -/
def scanRows (h spacing : ℕ) : List ℕ :=
  (List.range ((h + spacing - 1) / spacing)).map (· * spacing)

/-- Stitch emission for the segments of one row: each segment becomes one
`move_abs` at its transformed start and one `stitch_abs` at its
transformed end, both at the same transformed `y` (the `* 0.8` appears
as `* (4/5)`). -/
def bitmapRowCmds (cX cY sc : ℚ) (y : ℕ) (segs : List (ℕ × ℕ)) : List BCmd :=
  segs.flatMap (fun seg =>
    [BCmd.bmove (((seg.1 : ℚ) - cX) * sc * (4 / 5), ((y : ℚ) - cY) * sc * (4 / 5)),
     BCmd.bstitch (((seg.2 : ℚ) - cX) * sc * (4 / 5), ((y : ℚ) - cY) * sc * (4 / 5))])

/-- The whole bitmap fill pass: rows at vertical stride 3, centered on
the image. -/
def bitmapFillCmds (img : ℕ → ℕ → ℕ × ℕ × ℕ) (w h : ℕ) (sc : ℚ) : List BCmd :=
  (scanRows h 3).flatMap (fun y =>
    bitmapRowCmds ((w : ℚ) / 2) ((h : ℚ) / 2) sc y (rowSegments img w y))

noncomputable section

/-- Concrete fill-only shape: constant point function (a degenerate
contour), positive reported length, red hex fill. -/
def shapeA : Shape := ⟨60, fun _ => (1881 / 2, 1104), none, some "#FF0000"⟩

/-- `shapeA` with its path translated 5 units to the right. -/
def shapeA' : Shape := ⟨60, fun _ => (1891 / 2, 1104), none, some "#FF0000"⟩

/-- Concrete stroke-only shape: a short horizontal segment, blue stroke. -/
def shapeB : Shape := ⟨1, fun t => (1871 / 2 + t, 1104), some "blue", none⟩

/-- A shape whose path reports length zero. -/
def shapeZero : Shape := ⟨0, fun _ => (0, 0), some "red", some "blue"⟩

/-- A small contour used to exercise the concentric engine: four points
on a horizontal line through the origin, centroid at the origin. -/
def ptsSquare : List (ℝ × ℝ) := [(10, 0), (-10, 0), (10, 0), (-10, 0)]

/-- One `Move`-then-`Stitch`es block, as emitted for one concentric layer
or one stroke outline. -/
def moveStitchGroup (g : List Cmd) : Prop :=
  ∃ (q : ℝ × ℝ) (rs : List (ℝ × ℝ)), rs ≠ [] ∧ g = Cmd.move q :: rs.map Cmd.stitch

/-- The command shape asserted by end-to-end scenario 3 of the spec:
`ColorChange, Move, Stitch..., ColorChange, Move, Stitch..., End` with
exactly one `Move` block per shape (threads live in the thread list). -/
def scenario3Shape (cmds : List Cmd) : Prop :=
  ∃ (p₁ p₂ : ℝ × ℝ) (s₁ s₂ : List (ℝ × ℝ)), s₁ ≠ [] ∧ s₂ ≠ [] ∧
    cmds = Cmd.colorChange :: Cmd.move p₁ ::
      (s₁.map Cmd.stitch ++ Cmd.colorChange :: Cmd.move p₂ ::
        (s₂.map Cmd.stitch ++ [Cmd.patEnd]))

end

/-- A raster image that is blue everywhere. -/
def imgBlue : ℕ → ℕ → ℕ × ℕ × ℕ := fun _ _ => (0, 0, 255)

/-! ## Geometry of the concentric-offset step -/

theorem ptDist_nonneg (a b : ℝ × ℝ) : 0 ≤ ptDist a b :=
  Real.sqrt_nonneg _

theorem sq_ptDist (p c : ℝ × ℝ) :
    ptDist p c ^ 2 = (p.1 - c.1) ^ 2 + (p.2 - c.2) ^ 2 :=
  Real.sq_sqrt (by positivity)

theorem offPt_eq (c : ℝ × ℝ) (o : ℝ) (p : ℝ × ℝ) :
    offPt c o p =
      if o < ptDist p c then
        some (p.1 + (c.1 - p.1) * (o / ptDist p c),
              p.2 + (c.2 - p.2) * (o / ptDist p c))
      else none := by
  have h : (c.1 - p.1) * (c.1 - p.1) + (c.2 - p.2) * (c.2 - p.2)
      = (p.1 - c.1) ^ 2 + (p.2 - c.2) ^ 2 := by ring
  simp only [offPt, ptDist, h]

theorem offPt_none_of_le {c p : ℝ × ℝ} {o : ℝ} (h : ptDist p c ≤ o) :
    offPt c o p = none := by
  rw [offPt_eq, if_neg (not_lt.mpr h)]

theorem offPt_moved {c p : ℝ × ℝ} {o : ℝ} (ho : 0 ≤ o) (h : o < ptDist p c) :
    ∃ q, offPt c o p = some q ∧ ptDist q p = o ∧
      ptDist q c = ptDist p c - o ∧
      q.1 - p.1 = (o / ptDist p c) * (c.1 - p.1) ∧
      q.2 - p.2 = (o / ptDist p c) * (c.2 - p.2) := by
  have hL : 0 < ptDist p c := lt_of_le_of_lt ho h
  have hLne : ptDist p c ≠ 0 := ne_of_gt hL
  have hL2 := sq_ptDist p c
  have hcancel : ptDist p c * (o / ptDist p c) = o := by
    field_simp
  refine ⟨(p.1 + (c.1 - p.1) * (o / ptDist p c),
           p.2 + (c.2 - p.2) * (o / ptDist p c)),
    by rw [offPt_eq, if_pos h], ?_, ?_, by ring, by ring⟩
  · have key : (p.1 + (c.1 - p.1) * (o / ptDist p c) - p.1) ^ 2 +
        (p.2 + (c.2 - p.2) * (o / ptDist p c) - p.2) ^ 2 = o ^ 2 := by
      calc (p.1 + (c.1 - p.1) * (o / ptDist p c) - p.1) ^ 2 +
            (p.2 + (c.2 - p.2) * (o / ptDist p c) - p.2) ^ 2
          = ((p.1 - c.1) ^ 2 + (p.2 - c.2) ^ 2) * (o / ptDist p c) ^ 2 := by
            ring
        _ = ptDist p c ^ 2 * (o / ptDist p c) ^ 2 := by rw [← hL2]
        _ = (ptDist p c * (o / ptDist p c)) ^ 2 := by ring
        _ = o ^ 2 := by rw [hcancel]
    show Real.sqrt _ = o
    rw [show ((p.1 + (c.1 - p.1) * (o / ptDist p c),
           p.2 + (c.2 - p.2) * (o / ptDist p c)) : ℝ × ℝ).1
        = p.1 + (c.1 - p.1) * (o / ptDist p c) from rfl]
    rw [show ((p.1 + (c.1 - p.1) * (o / ptDist p c),
           p.2 + (c.2 - p.2) * (o / ptDist p c)) : ℝ × ℝ).2
        = p.2 + (c.2 - p.2) * (o / ptDist p c) from rfl]
    rw [key, Real.sqrt_sq ho]
  · have key : (p.1 + (c.1 - p.1) * (o / ptDist p c) - c.1) ^ 2 +
        (p.2 + (c.2 - p.2) * (o / ptDist p c) - c.2) ^ 2
        = (ptDist p c - o) ^ 2 := by
      calc (p.1 + (c.1 - p.1) * (o / ptDist p c) - c.1) ^ 2 +
            (p.2 + (c.2 - p.2) * (o / ptDist p c) - c.2) ^ 2
          = ((p.1 - c.1) ^ 2 + (p.2 - c.2) ^ 2) * (1 - o / ptDist p c) ^ 2 := by
            ring
        _ = ptDist p c ^ 2 * (1 - o / ptDist p c) ^ 2 := by rw [← hL2]
        _ = (ptDist p c * 1 - ptDist p c * (o / ptDist p c)) ^ 2 := by ring
        _ = (ptDist p c - o) ^ 2 := by rw [hcancel, mul_one]
    show Real.sqrt _ = ptDist p c - o
    rw [show ((p.1 + (c.1 - p.1) * (o / ptDist p c),
           p.2 + (c.2 - p.2) * (o / ptDist p c)) : ℝ × ℝ).1
        = p.1 + (c.1 - p.1) * (o / ptDist p c) from rfl]
    rw [show ((p.1 + (c.1 - p.1) * (o / ptDist p c),
           p.2 + (c.2 - p.2) * (o / ptDist p c)) : ℝ × ℝ).2
        = p.2 + (c.2 - p.2) * (o / ptDist p c) from rfl]
    rw [key, Real.sqrt_sq (by linarith)]

theorem offPt_zero (c p : ℝ × ℝ) :
    offPt c 0 p = if 0 < ptDist p c then some p else none := by
  rw [offPt_eq]
  by_cases h : 0 < ptDist p c
  · rw [if_pos h, if_pos h]
    simp
  · rw [if_neg h, if_neg h]

theorem layerPts_zero (c : ℝ × ℝ) (pts : List (ℝ × ℝ)) :
    layerPts c 0 pts = pts.filter (fun p => 0 < ptDist p c) := by
  induction pts with
  | nil => rfl
  | cons a l ih =>
    simp only [layerPts, List.filterMap_cons] at ih ⊢
    rw [offPt_zero]
    by_cases h : 0 < ptDist a c
    · rw [if_pos h]
      simp [List.filter_cons, h, ih]
    · rw [if_neg h]
      simp [List.filter_cons, h, ih]

/-! ## Concrete geometry evaluations used by witnesses -/

theorem centroid_ptsSquare : centroidPt ptsSquare = (0, 0) := by
  norm_num [centroidPt, ptsSquare]

theorem ptDist_ten : ptDist ((10 : ℝ), 0) (0, 0) = 10 := by
  have h : ptDist ((10 : ℝ), 0) (0, 0) = Real.sqrt 100 := by
    norm_num [ptDist]
  rw [h, show (100 : ℝ) = 10 ^ 2 by norm_num,
    Real.sqrt_sq (by norm_num : (0:ℝ) ≤ 10)]

theorem ptDist_negten : ptDist ((-10 : ℝ), 0) (0, 0) = 10 := by
  have h : ptDist ((-10 : ℝ), 0) (0, 0) = Real.sqrt 100 := by
    norm_num [ptDist]
  rw [h, show (100 : ℝ) = 10 ^ 2 by norm_num,
    Real.sqrt_sq (by norm_num : (0:ℝ) ≤ 10)]

/-! ## Claims C4, C7, C10: the concentric-offset fill engine -/

/-- Claim C4: for the concentric engine with layer count `L` and spacing
`d`, the centroid is the arithmetic mean of the contour points; layer `k`
uses offset `k * d`; a boundary point whose distance to the centroid
exceeds the offset is moved toward the centroid by exactly that offset
along the point-to-centroid vector, and is dropped otherwise; and a layer
is emitted as `Move` then `Stitch`es exactly when it retains more than 3
points. -/
theorem C4_concentric_engine (pts : List (ℝ × ℝ)) (L : ℕ) (d : ℝ)
    (hd : 0 ≤ d) :
    (centroidPt pts).1 = (pts.map Prod.fst).sum / (pts.length : ℝ) ∧
    (centroidPt pts).2 = (pts.map Prod.snd).sum / (pts.length : ℝ) ∧
    (∀ (k : ℕ) (p : ℝ × ℝ),
      ((k : ℝ) * d < ptDist p (centroidPt pts) →
        ∃ q, offPt (centroidPt pts) ((k : ℝ) * d) p = some q ∧
          ptDist q p = (k : ℝ) * d ∧
          q.1 - p.1 = ((k : ℝ) * d / ptDist p (centroidPt pts)) *
            ((centroidPt pts).1 - p.1) ∧
          q.2 - p.2 = ((k : ℝ) * d / ptDist p (centroidPt pts)) *
            ((centroidPt pts).2 - p.2)) ∧
      (ptDist p (centroidPt pts) ≤ (k : ℝ) * d →
        offPt (centroidPt pts) ((k : ℝ) * d) p = none)) ∧
    (∀ k : ℕ,
      (3 < (layerPts (centroidPt pts) ((k : ℝ) * d) pts).length →
        ∃ q rs, layerPts (centroidPt pts) ((k : ℝ) * d) pts = q :: rs ∧
          layerCmdsOf (layerPts (centroidPt pts) ((k : ℝ) * d) pts)
            = Cmd.move q :: rs.map Cmd.stitch) ∧
      ((layerPts (centroidPt pts) ((k : ℝ) * d) pts).length ≤ 3 →
        layerCmdsOf (layerPts (centroidPt pts) ((k : ℝ) * d) pts) = [])) ∧
    concentricCmds pts L d = (List.range L).flatMap (fun k =>
      layerCmdsOf (layerPts (centroidPt pts) ((k : ℝ) * d) pts)) := by
  refine ⟨rfl, rfl, ?_, ?_, rfl⟩
  · intro k p
    constructor
    · intro h
      obtain ⟨q, hq, hqp, _, h1, h2⟩ :=
        offPt_moved (by positivity : (0:ℝ) ≤ (k : ℝ) * d) h
      exact ⟨q, hq, hqp, h1, h2⟩
    · exact fun h => offPt_none_of_le h
  · intro k
    constructor
    · intro h3
      rcases hfl : layerPts (centroidPt pts) ((k : ℝ) * d) pts with _ | ⟨q, rs⟩
      · rw [hfl] at h3
        simp at h3
      · refine ⟨q, rs, rfl, ?_⟩
        rw [hfl] at h3
        unfold layerCmdsOf
        rw [if_pos h3]
    · intro h3
      unfold layerCmdsOf
      rw [if_neg (not_lt.mpr h3)]

/-- Witness for C4 at a concrete contour and layer: the point `(10, 0)`
of `ptsSquare` at layer 1 (offset 3) is retained and moved by exactly 3
toward the centroid. -/
theorem C4_concentric_engine_w :
    ((1:ℕ) : ℝ) * 3 < ptDist ((10:ℝ), 0) (centroidPt ptsSquare) ∧
    ∃ q, offPt (centroidPt ptsSquare) (((1:ℕ) : ℝ) * 3) ((10:ℝ), 0) = some q ∧
      ptDist q ((10:ℝ), 0) = ((1:ℕ) : ℝ) * 3 ∧
      q.1 - ((10:ℝ), (0:ℝ)).1 = (((1:ℕ) : ℝ) * 3 / ptDist ((10:ℝ), 0) (centroidPt ptsSquare)) *
        ((centroidPt ptsSquare).1 - ((10:ℝ), (0:ℝ)).1) ∧
      q.2 - ((10:ℝ), (0:ℝ)).2 = (((1:ℕ) : ℝ) * 3 / ptDist ((10:ℝ), 0) (centroidPt ptsSquare)) *
        ((centroidPt ptsSquare).2 - ((10:ℝ), (0:ℝ)).2) := by
  have hlt : ((1:ℕ) : ℝ) * 3 < ptDist ((10:ℝ), 0) (centroidPt ptsSquare) := by
    rw [centroid_ptsSquare, ptDist_ten]
    norm_num
  exact ⟨hlt, ((C4_concentric_engine ptsSquare 8 3 (by norm_num)).2.2.1 1 (10, 0)).1 hlt⟩

/-- Claim C7: concentric layers are monotonically non-expanding: a
boundary point retained at layer `k ≥ 1` was also retained at layer
`k - 1`, and its layer-`k` position is no farther from the centroid than
its layer-`(k-1)` position. -/
theorem C7_layers_nonexpanding (pts : List (ℝ × ℝ)) (d : ℝ) (hd : 0 ≤ d)
    (k : ℕ) (hk : 1 ≤ k) (p q : ℝ × ℝ)
    (hq : offPt (centroidPt pts) ((k : ℝ) * d) p = some q) :
    ∃ q', offPt (centroidPt pts) (((k - 1 : ℕ) : ℝ) * d) p = some q' ∧
      ptDist q (centroidPt pts) ≤ ptDist q' (centroidPt pts) := by
  have ho : (0:ℝ) ≤ (k : ℝ) * d := by positivity
  have hlt : (k : ℝ) * d < ptDist p (centroidPt pts) := by
    by_contra hcon
    rw [offPt_none_of_le (not_lt.mp hcon)] at hq
    exact Option.noConfusion hq
  have ho' : (0:ℝ) ≤ ((k - 1 : ℕ) : ℝ) * d := by positivity
  have hle : ((k - 1 : ℕ) : ℝ) * d ≤ (k : ℝ) * d := by
    apply mul_le_mul_of_nonneg_right _ hd
    exact_mod_cast Nat.sub_le k 1
  have hlt' : ((k - 1 : ℕ) : ℝ) * d < ptDist p (centroidPt pts) :=
    lt_of_le_of_lt hle hlt
  obtain ⟨q1, hq1, _, hq1c, _, _⟩ := offPt_moved ho hlt
  obtain ⟨q', hq', _, hq'c, _, _⟩ := offPt_moved ho' hlt'
  have e : q = q1 := by
    injection hq.symm.trans hq1
  subst e
  exact ⟨q', hq', by rw [hq1c, hq'c]; linarith⟩

/-- Witness for C7: the point `(10, 0)` of `ptsSquare`, retained at layer
1 as `(7, 0)`, is also retained at layer 0 and no farther from the
centroid. -/
theorem C7_layers_nonexpanding_w :
    offPt (centroidPt ptsSquare) (((1:ℕ) : ℝ) * 3) ((10:ℝ), 0) = some ((7:ℝ), 0) ∧
    ∃ q', offPt (centroidPt ptsSquare) (((1 - 1 : ℕ) : ℝ) * 3) ((10:ℝ), 0) = some q' ∧
      ptDist ((7:ℝ), 0) (centroidPt ptsSquare) ≤ ptDist q' (centroidPt ptsSquare) := by
  have h1 : offPt (centroidPt ptsSquare) (((1:ℕ) : ℝ) * 3) ((10:ℝ), 0)
      = some ((7:ℝ), 0) := by
    rw [centroid_ptsSquare, offPt_eq, ptDist_ten]
    rw [if_pos (by norm_num : ((1:ℕ) : ℝ) * 3 < 10)]
    norm_num
  exact ⟨h1, C7_layers_nonexpanding ptsSquare 3 (by norm_num) 1 le_rfl (10, 0) (7, 0) h1⟩

/-- Claim C10: layer 0 of the concentric fill retains exactly the sampled
points at strictly positive distance from the centroid, each unchanged;
when more than 3 such points exist, the emitted fill begins with a
stitched pass of those original boundary points. -/
theorem C10_layer0_boundary_pass (pts : List (ℝ × ℝ)) :
    layerPts (centroidPt pts) 0 pts
      = pts.filter (fun p => 0 < ptDist p (centroidPt pts)) ∧
    (3 < (pts.filter (fun p => 0 < ptDist p (centroidPt pts))).length →
      ∃ q rs tail,
        pts.filter (fun p => 0 < ptDist p (centroidPt pts)) = q :: rs ∧
        concentricCmds pts 8 3 = (Cmd.move q :: rs.map Cmd.stitch) ++ tail) := by
  constructor
  · exact layerPts_zero _ _
  · intro h3
    obtain ⟨q, rs, hqrs⟩ : ∃ q rs,
        pts.filter (fun p => 0 < ptDist p (centroidPt pts)) = q :: rs := by
      rcases hfl : pts.filter (fun p => 0 < ptDist p (centroidPt pts)) with _ | ⟨q, rs⟩
      · rw [hfl] at h3
        simp at h3
      · exact ⟨q, rs, rfl⟩
    have hlen : 3 < (q :: rs).length := by
      rw [← hqrs]
      exact h3
    have hsplit : concentricCmds pts 8 3
        = layerCmdsOf (layerPts (centroidPt pts) (((0:ℕ) : ℝ) * 3) pts)
          ++ ((List.range 7).map Nat.succ).flatMap (fun layer =>
              layerCmdsOf (layerPts (centroidPt pts) ((layer : ℝ) * 3) pts)) := by
      rw [concentricCmds, show (8:ℕ) = 7 + 1 from rfl, List.range_succ_eq_map,
        List.flatMap_cons]
    have hblk : layerPts (centroidPt pts) (((0:ℕ) : ℝ) * 3) pts = q :: rs := by
      rw [Nat.cast_zero, zero_mul, layerPts_zero, hqrs]
    have hcmds : layerCmdsOf (q :: rs) = Cmd.move q :: rs.map Cmd.stitch := by
      unfold layerCmdsOf
      rw [if_pos hlen]
    refine ⟨q, rs,
      ((List.range 7).map Nat.succ).flatMap (fun layer =>
        layerCmdsOf (layerPts (centroidPt pts) ((layer : ℝ) * 3) pts)),
      hqrs, ?_⟩
    rw [hsplit, hblk, hcmds]

/-- Witness for C10: all four points of `ptsSquare` are at positive
distance from its centroid, so its concentric fill begins with a stitched
pass of the boundary itself. -/
theorem C10_layer0_boundary_pass_w :
    3 < (ptsSquare.filter (fun p => 0 < ptDist p (centroidPt ptsSquare))).length ∧
    ∃ q rs tail,
      ptsSquare.filter (fun p => 0 < ptDist p (centroidPt ptsSquare)) = q :: rs ∧
      concentricCmds ptsSquare 8 3 = (Cmd.move q :: rs.map Cmd.stitch) ++ tail := by
  have hd1 : 0 < ptDist ((10:ℝ), 0) (0, 0) := by
    rw [ptDist_ten]
    norm_num
  have hd2 : 0 < ptDist ((-10:ℝ), 0) (0, 0) := by
    rw [ptDist_negten]
    norm_num
  have h3 : 3 < (ptsSquare.filter (fun p => 0 < ptDist p (centroidPt ptsSquare))).length := by
    rw [centroid_ptsSquare]
    have hfe : ptsSquare.filter (fun p => 0 < ptDist p (0, 0)) = ptsSquare := by
      simp only [ptsSquare, List.filter_cons, List.filter_nil]
      rw [if_pos (decide_eq_true hd1), if_pos (decide_eq_true hd2),
        if_pos (decide_eq_true hd1), if_pos (decide_eq_true hd2)]
    rw [hfe]
    norm_num [ptsSquare]
  exact ⟨h3, (C10_layer0_boundary_pass ptsSquare).2 h3⟩

/-! ## Claim C1: the curve sampler -/

/-- Claim C1 (amended): for a path of positive length sampled with step
`s` and minimum count `m`, the sampler computes
`n = max(int(length/s), m)` — `int` truncates the quotient, it does not
round — returns exactly `n + 1` points at parameters `t = j / n`, and
resampling with the same parameters yields the identical sequence. -/
theorem C1_sampler_count (pt : ℝ → ℝ × ℝ) (len step : ℝ) (m : ℕ)
    (cx cy sc : ℝ) (hlen : 0 < len) :
    (samplePts pt cx cy sc (nSamples len step m)).length
      = nSamples len step m + 1 ∧
    nSamples len step m = max (Int.toNat ⌊len / step⌋) m ∧
    (∀ j : ℕ, j < nSamples len step m + 1 →
      (samplePts pt cx cy sc (nSamples len step m))[j]? =
        some (transf cx cy sc (pt ((j : ℝ) / (nSamples len step m : ℝ))))) ∧
    samplePts pt cx cy sc (nSamples len step m)
      = samplePts pt cx cy sc (nSamples len step m) := by
  refine ⟨?_, rfl, ?_, rfl⟩
  · unfold samplePts
    rw [List.length_map, List.length_range]
  · intro j hj
    unfold samplePts
    rw [List.getElem?_map, List.getElem?_range hj]
    rfl

/-- Witness for C1 (amended) at length 60, step 3, minimum 20. -/
theorem C1_sampler_count_w :
    (0:ℝ) < 60 ∧
    (samplePts (fun t => (t, t)) 0 0 1 (nSamples 60 3 20)).length
      = nSamples 60 3 20 + 1 :=
  ⟨by norm_num,
   (C1_sampler_count (fun t => (t, t)) 60 3 20 0 0 1 (by norm_num)).1⟩

/-- Counterexample to C1 as stated: at length `2.9`, step `1`, stroke
minimum `2`, the code's sampler returns `max(int(2.9), 2) + 1 = 3`
points, while the claimed `max(round(2.9), 2) + 1` is `4`. -/
theorem C1_sampler_count_cex :
    (samplePts (fun t => (t, t)) 0 0 1 (nSamples (29/10) 1 2)).length = 3 ∧
    max (round ((29:ℝ)/10 / 1)).toNat 2 + 1 = 4 := by
  constructor
  · have h : nSamples ((29:ℝ)/10) 1 2 = 2 := by
      unfold nSamples
      rw [show (29:ℝ)/10/1 = 29/10 by norm_num,
        show ⌊(29:ℝ)/10⌋ = 2 by norm_num]
      decide
    rw [h]
    unfold samplePts
    rw [List.length_map, List.length_range]
  · rw [show ((29:ℝ)/10/1) = 29/10 by norm_num,
      show round ((29:ℝ)/10) = 3 by norm_num [round_eq]]
    decide

/-! ## Claim C3: empty input -/

/-- Claim C3: converting an empty shape list fails with the empty-input
signal before any command, thread or stitch is produced. -/
theorem C3_empty_input (step sc : ℝ) :
    convert step sc [] = Except.error ConvErr.emptyInput := rfl

/-! ## Claim C6: every stitch run starts with a Move -/

theorem flatMap_eq_map_flatten {α β : Type} (l : List α) (f : α → List β) :
    l.flatMap f = (l.map f).flatten := by
  induction l with
  | nil => simp
  | cons a l ih => simp [ih]

theorem coordOk_append (xs ys : List Cmd) :
    ∀ b, coordOk b (xs ++ ys) = (coordOk b xs && coordOk (flagAfter b xs) ys) := by
  induction xs with
  | nil => intro b; simp [coordOk, flagAfter]
  | cons x xs ih =>
    intro b
    cases x <;> simp [coordOk, flagAfter, ih, Bool.and_assoc]

theorem coordOk_stitches (ps : List (ℝ × ℝ)) :
    coordOk true (ps.map Cmd.stitch) = true ∧
    flagAfter true (ps.map Cmd.stitch) = true := by
  induction ps with
  | nil => exact ⟨rfl, rfl⟩
  | cons p ps ih => simpa [coordOk, flagAfter] using ih

theorem coordOk_flatten (gs : List (List Cmd))
    (h : ∀ g ∈ gs, g = [] ∨ moveStitchGroup g) :
    ∀ b, coordOk b gs.flatten = true := by
  induction gs with
  | nil => intro b; rfl
  | cons g gs ih =>
    intro b
    have hg := h g (List.mem_cons_self g gs)
    have hrest : ∀ g' ∈ gs, g' = [] ∨ moveStitchGroup g' :=
      fun g' hm => h g' (List.mem_cons_of_mem _ hm)
    rw [List.flatten_cons, coordOk_append]
    rcases hg with hnil | ⟨q, rs, hne, hgrp⟩
    · rw [hnil]
      simpa [coordOk, flagAfter] using ih hrest b
    · rw [hgrp]
      have h1 : coordOk b (Cmd.move q :: rs.map Cmd.stitch) = true := by
        simp [coordOk, (coordOk_stitches rs).1]
      have h2 : flagAfter b (Cmd.move q :: rs.map Cmd.stitch) = true := by
        simp [flagAfter, (coordOk_stitches rs).2]
      rw [h1, h2, ih hrest true]
      rfl

theorem layerCmdsOf_shape (lp : List (ℝ × ℝ)) :
    layerCmdsOf lp = [] ∨ moveStitchGroup (layerCmdsOf lp) := by
  unfold layerCmdsOf
  by_cases h : 3 < lp.length
  · rw [if_pos h]
    cases lp with
    | nil => exact Or.inl rfl
    | cons q rs =>
      right
      refine ⟨q, rs, ?_, rfl⟩
      intro hrs
      rw [hrs] at h
      simp at h
  · rw [if_neg h]
    exact Or.inl rfl

theorem coordOk_concentric (pts : List (ℝ × ℝ)) (L : ℕ) (d : ℝ) :
    ∀ b, coordOk b (concentricCmds pts L d) = true := by
  intro b
  unfold concentricCmds
  rw [flatMap_eq_map_flatten]
  apply coordOk_flatten
  intro g hg
  obtain ⟨k, _, hk⟩ := List.mem_map.mp hg
  rw [← hk]
  exact layerCmdsOf_shape _

theorem coordOk_fillPart (step sc : ℝ) (i : ℕ) (sh : Shape) (st : ConvSt) :
    ∀ b, coordOk b (fillPart step sc i sh st).2.1 = true := by
  intro b
  unfold fillPart
  by_cases h : colorPresent sh.fill
  · rw [if_pos h]
    rcases hsp : samplePts sh.point st.cx st.cy sc (nSamples sh.len step 20)
      with _ | ⟨q, rs⟩
    · rfl
    · show coordOk false (concentricCmds (q :: rs) 8 3) = true
      exact coordOk_concentric _ _ _ false
  · rw [if_neg h]
    rfl

theorem coordOk_strokePart (step sc : ℝ) (i : ℕ) (sh : Shape) (st : ConvSt) :
    ∀ b, coordOk b (strokePart step sc i sh st).2.1 = true := by
  intro b
  unfold strokePart
  by_cases h : colorPresent sh.stroke
  · rw [if_pos h]
    rcases hsp : samplePts sh.point st.cx st.cy sc (nSamples sh.len step 2)
      with _ | ⟨q, rs⟩
    · rfl
    · show coordOk true (rs.map Cmd.stitch) = true
      exact (coordOk_stitches rs).1
  · rw [if_neg h]
    rfl

theorem coordOk_processShape (step sc : ℝ) (i : ℕ) (sh : Shape) (st : ConvSt) :
    ∀ b, coordOk b (processShape step sc i sh st).2.1 = true := by
  intro b
  unfold processShape
  by_cases h : sh.len = 0
  · rw [if_pos h]
    rfl
  · rw [if_neg h]
    show coordOk b ((fillPart step sc i sh st).2.1 ++
      (strokePart step sc i sh (fillPart step sc i sh st).1).2.1) = true
    rw [coordOk_append]
    rw [coordOk_fillPart step sc i sh st b,
      coordOk_strokePart step sc i sh _ _]
    rfl

theorem coordOk_convertGo (step sc : ℝ) (shapes : List Shape) :
    ∀ (i : ℕ) (st : ConvSt) (b : Bool),
      coordOk b (convertGo step sc i st shapes).2.1 = true := by
  induction shapes with
  | nil => intro i st b; rfl
  | cons sh rest ih =>
    intro i st b
    show coordOk b ((processShape step sc i sh st).2.1 ++
      (convertGo step sc (i + 1) (processShape step sc i sh st).1 rest).2.1) = true
    rw [coordOk_append, coordOk_processShape, ih]
    rfl

/-- Claim C6: for every input shape list and all parameters, in the
produced command sequence the first coordinate command of the whole
sequence and the first coordinate command after any `ColorChange` is a
`Move`, never a `Stitch` (stated via the `coordOk` checker started with
an unset flag). -/
theorem C6_move_first (step sc : ℝ) (shapes : List Shape) :
    coordOk false (cmdsOf step sc shapes) = true := by
  unfold cmdsOf convert
  by_cases h : shapes.isEmpty
  · rw [if_pos h]
    rfl
  · rw [if_neg h]
    show coordOk false ((convertGo step sc 0 initState shapes).2.1 ++ [Cmd.patEnd]) = true
    rw [coordOk_append, coordOk_convertGo]
    cases flagAfter false (convertGo step sc 0 initState shapes).2.1 <;> rfl

/-! ## Claim C8: zero-length paths are skipped silently -/

theorem processShape_zero {sh : Shape} (h : sh.len = 0) (step sc : ℝ)
    (i : ℕ) (st : ConvSt) : processShape step sc i sh st = (st, [], []) := by
  unfold processShape
  rw [if_pos h]

theorem fillPart_index (step sc : ℝ) (i i' : ℕ) (sh : Shape) (st : ConvSt) :
    (fillPart step sc i sh st).1 = (fillPart step sc i' sh st).1 ∧
    (fillPart step sc i sh st).2.1 = (fillPart step sc i' sh st).2.1 := by
  unfold fillPart
  by_cases hf : colorPresent sh.fill
  · rw [if_pos hf, if_pos hf]
    rcases samplePts sh.point st.cx st.cy sc (nSamples sh.len step 20)
      with _ | ⟨q, rs⟩
    · exact ⟨rfl, rfl⟩
    · exact ⟨rfl, rfl⟩
  · rw [if_neg hf, if_neg hf]
    exact ⟨rfl, rfl⟩

theorem strokePart_index (step sc : ℝ) (i i' : ℕ) (sh : Shape) (st : ConvSt) :
    (strokePart step sc i sh st).1 = (strokePart step sc i' sh st).1 ∧
    (strokePart step sc i sh st).2.1 = (strokePart step sc i' sh st).2.1 := by
  unfold strokePart
  by_cases hs : colorPresent sh.stroke
  · rw [if_pos hs, if_pos hs]
    rcases samplePts sh.point st.cx st.cy sc (nSamples sh.len step 2)
      with _ | ⟨q, rs⟩
    · exact ⟨rfl, rfl⟩
    · exact ⟨rfl, rfl⟩
  · rw [if_neg hs, if_neg hs]
    exact ⟨rfl, rfl⟩

theorem processShape_index (step sc : ℝ) (i i' : ℕ) (sh : Shape) (st : ConvSt) :
    (processShape step sc i sh st).1 = (processShape step sc i' sh st).1 ∧
    (processShape step sc i sh st).2.1 = (processShape step sc i' sh st).2.1 := by
  unfold processShape
  by_cases h0 : sh.len = 0
  · rw [if_pos h0, if_pos h0]
    exact ⟨rfl, rfl⟩
  · rw [if_neg h0, if_neg h0]
    have hfi := fillPart_index step sc i i' sh st
    constructor
    · show (strokePart step sc i sh (fillPart step sc i sh st).1).1
        = (strokePart step sc i' sh (fillPart step sc i' sh st).1).1
      rw [← hfi.1]
      exact (strokePart_index step sc i i' sh _).1
    · show (fillPart step sc i sh st).2.1
          ++ (strokePart step sc i sh (fillPart step sc i sh st).1).2.1
        = (fillPart step sc i' sh st).2.1
          ++ (strokePart step sc i' sh (fillPart step sc i' sh st).1).2.1
      rw [← hfi.1, ← hfi.2]
      rw [(strokePart_index step sc i i' sh (fillPart step sc i sh st).1).2]

theorem convertGo_index (step sc : ℝ) (shapes : List Shape) :
    ∀ (i i' : ℕ) (st : ConvSt),
      (convertGo step sc i st shapes).1 = (convertGo step sc i' st shapes).1 ∧
      (convertGo step sc i st shapes).2.1
        = (convertGo step sc i' st shapes).2.1 := by
  induction shapes with
  | nil => intro i i' st; exact ⟨rfl, rfl⟩
  | cons sh rest ih =>
    intro i i' st
    have hp := processShape_index step sc i i' sh st
    constructor
    · show (convertGo step sc (i + 1) (processShape step sc i sh st).1 rest).1
        = (convertGo step sc (i' + 1) (processShape step sc i' sh st).1 rest).1
      rw [← hp.1]
      exact (ih (i + 1) (i' + 1) _).1
    · show (processShape step sc i sh st).2.1
          ++ (convertGo step sc (i + 1) (processShape step sc i sh st).1 rest).2.1
        = (processShape step sc i' sh st).2.1
          ++ (convertGo step sc (i' + 1) (processShape step sc i' sh st).1 rest).2.1
      rw [← hp.1, ← hp.2]
      rw [(ih (i + 1) (i' + 1) (processShape step sc i sh st).1).2]

theorem convertGo_append (step sc : ℝ) (xs ys : List Shape) :
    ∀ (i : ℕ) (st : ConvSt),
      (convertGo step sc i st (xs ++ ys)).1
        = (convertGo step sc (i + xs.length)
            (convertGo step sc i st xs).1 ys).1 ∧
      (convertGo step sc i st (xs ++ ys)).2.1
        = (convertGo step sc i st xs).2.1
          ++ (convertGo step sc (i + xs.length)
              (convertGo step sc i st xs).1 ys).2.1 := by
  induction xs with
  | nil =>
    intro i st
    constructor
    · show (convertGo step sc i st ys).1
        = (convertGo step sc (i + 0) st ys).1
      rw [Nat.add_zero]
    · show (convertGo step sc i st ys).2.1
        = [] ++ (convertGo step sc (i + 0) st ys).2.1
      rw [Nat.add_zero, List.nil_append]
  | cons sh xs ih =>
    intro i st
    have e1 : i + (sh :: xs).length = (i + 1) + xs.length := by
      rw [List.length_cons]
      omega
    constructor
    · show (convertGo step sc (i + 1) (processShape step sc i sh st).1 (xs ++ ys)).1
        = (convertGo step sc (i + (sh :: xs).length)
            (convertGo step sc i st (sh :: xs)).1 ys).1
      rw [e1]
      exact (ih (i + 1) (processShape step sc i sh st).1).1
    · show (processShape step sc i sh st).2.1
          ++ (convertGo step sc (i + 1) (processShape step sc i sh st).1 (xs ++ ys)).2.1
        = ((processShape step sc i sh st).2.1
            ++ (convertGo step sc (i + 1) (processShape step sc i sh st).1 xs).2.1)
          ++ (convertGo step sc (i + (sh :: xs).length)
              (convertGo step sc i st (sh :: xs)).1 ys).2.1
      rw [e1, (ih (i + 1) (processShape step sc i sh st).1).2, List.append_assoc]
      rfl

/-- Claim C8: a shape whose path has length 0 is skipped silently: its
loop iteration emits no commands and no threads and leaves the state
(center and total-stitch counter) unchanged, and removing it from any
input list (that stays nonempty) changes neither the emitted command
sequence nor the final total-stitch count. -/
theorem C8_zero_length_skip (sh : Shape) (h : sh.len = 0) :
    (∀ (step sc : ℝ) (i : ℕ) (st : ConvSt),
      processShape step sc i sh st = (st, [], [])) ∧
    (∀ (step sc : ℝ) (pre post : List Shape), pre ++ post ≠ [] →
      cmdsOf step sc (pre ++ sh :: post) = cmdsOf step sc (pre ++ post) ∧
      totalOf step sc (pre ++ sh :: post) = totalOf step sc (pre ++ post)) := by
  refine ⟨fun step sc i st => processShape_zero h step sc i st, ?_⟩
  intro step sc pre post hne
  have hgo : ∀ (i : ℕ) (st : ConvSt),
      (convertGo step sc i st (pre ++ sh :: post)).1
        = (convertGo step sc i st (pre ++ post)).1 ∧
      (convertGo step sc i st (pre ++ sh :: post)).2.1
        = (convertGo step sc i st (pre ++ post)).2.1 := by
    intro i st
    have ha1 := convertGo_append step sc pre (sh :: post) i st
    have ha2 := convertGo_append step sc pre post i st
    have hmid : ∀ (j : ℕ) (st' : ConvSt),
        (convertGo step sc j st' (sh :: post)).1
          = (convertGo step sc j st' post).1 ∧
        (convertGo step sc j st' (sh :: post)).2.1
          = (convertGo step sc j st' post).2.1 := by
      intro j st'
      constructor
      · show (convertGo step sc (j + 1) (processShape step sc j sh st').1 post).1
          = (convertGo step sc j st' post).1
        rw [processShape_zero h step sc j st']
        exact (convertGo_index step sc post (j + 1) j st').1
      · show (processShape step sc j sh st').2.1
            ++ (convertGo step sc (j + 1) (processShape step sc j sh st').1 post).2.1
          = (convertGo step sc j st' post).2.1
        rw [processShape_zero h step sc j st']
        rw [show ((st', ([] : List Cmd), ([] : List Thread)).2.1) = ([] : List Cmd) from rfl]
        rw [List.nil_append]
        exact (convertGo_index step sc post (j + 1) j st').2
    constructor
    · rw [ha1.1, ha2.1, (hmid (i + pre.length) (convertGo step sc i st pre).1).1]
    · rw [ha1.2, ha2.2, (hmid (i + pre.length) (convertGo step sc i st pre).1).2]
  have hc1 : ¬((pre ++ sh :: post).isEmpty = true) := by
    simp
  have hc2 : ¬((pre ++ post).isEmpty = true) := by
    simp only [List.isEmpty_iff]
    exact hne
  constructor
  · unfold cmdsOf convert
    rw [if_neg hc1, if_neg hc2]
    show (convertGo step sc 0 initState (pre ++ sh :: post)).2.1 ++ [Cmd.patEnd]
      = (convertGo step sc 0 initState (pre ++ post)).2.1 ++ [Cmd.patEnd]
    rw [(hgo 0 initState).2]
  · unfold totalOf convert
    rw [if_neg hc1, if_neg hc2]
    show (convertGo step sc 0 initState (pre ++ sh :: post)).1.total
      = (convertGo step sc 0 initState (pre ++ post)).1.total
    rw [(hgo 0 initState).1]

/-- Witness for C8: the concrete zero-length shape `shapeZero` is a
no-op in the loop, and dropping it from a two-shape input leaves the
commands and total unchanged. -/
theorem C8_zero_length_skip_w :
    shapeZero.len = 0 ∧
    (∀ (step sc : ℝ) (i : ℕ) (st : ConvSt),
      processShape step sc i shapeZero st = (st, [], [])) ∧
    ([shapeB] ++ [] ≠ ([] : List Shape) →
      cmdsOf 3 1 ([shapeB] ++ shapeZero :: []) = cmdsOf 3 1 ([shapeB] ++ []) ∧
      totalOf 3 1 ([shapeB] ++ shapeZero :: []) = totalOf 3 1 ([shapeB] ++ [])) := by
  have h0 : shapeZero.len = 0 := rfl
  have hmain := C8_zero_length_skip shapeZero h0
  exact ⟨h0, hmain.1, fun hne => hmain.2 3 1 [shapeB] [] hne⟩

/-! ## Claim C9: bitmap fill runs -/

theorem scanStep_inv (img : ℕ → ℕ → ℕ × ℕ × ℕ) (y x : ℕ)
    (acc : List (ℕ × ℕ) × Option ℕ)
    (hacc : ∀ seg ∈ acc.1, seg.1 < seg.2 ∧ 5 < seg.2 - seg.1) :
    ∀ seg ∈ (scanStep img y acc x).1, seg.1 < seg.2 ∧ 5 < seg.2 - seg.1 := by
  unfold scanStep
  by_cases hb : isBlue (img x y)
  · rw [if_pos hb]
    split
    · exact hacc
    · exact hacc
  · rw [if_neg hb]
    split
    · rename_i s heq
      split
      · rename_i hw
        intro seg hseg
        rcases List.mem_append.mp hseg with hm | hm
        · exact hacc seg hm
        · have he : seg = (s, x) := List.mem_singleton.mp hm
          rw [he]
          exact ⟨by omega, hw⟩
      · exact hacc
    · exact hacc

theorem foldScan_inv (img : ℕ → ℕ → ℕ × ℕ × ℕ) (y : ℕ) :
    ∀ (xs : List ℕ) (acc : List (ℕ × ℕ) × Option ℕ),
      (∀ seg ∈ acc.1, seg.1 < seg.2 ∧ 5 < seg.2 - seg.1) →
      ∀ seg ∈ (xs.foldl (scanStep img y) acc).1,
        seg.1 < seg.2 ∧ 5 < seg.2 - seg.1 := by
  intro xs
  induction xs with
  | nil => intro acc hacc; exact hacc
  | cons x xs ih =>
    intro acc hacc
    exact ih _ (scanStep_inv img y x acc hacc)

theorem rowSegments_inv (img : ℕ → ℕ → ℕ × ℕ × ℕ) (w y : ℕ) :
    ∀ seg ∈ rowSegments img w y, seg.1 < seg.2 ∧ 5 < seg.2 - seg.1 := by
  have hfold := foldScan_inv img y (List.range w) ([], none)
    (by intro seg hseg; simp at hseg)
  simp only [rowSegments]
  split
  · rename_i s heq
    split
    · rename_i hw
      intro seg hseg
      rcases List.mem_append.mp hseg with hm | hm
      · exact hfold seg hm
      · have he : seg = (s, w) := List.mem_singleton.mp hm
        rw [he]
        exact ⟨by omega, hw⟩
    · exact hfold
  · exact hfold

theorem mem_scanRows (h y : ℕ) : y ∈ scanRows h 3 ↔ 3 ∣ y ∧ y < h := by
  unfold scanRows
  simp only [List.mem_map, List.mem_range]
  constructor
  · rintro ⟨k, hk, rfl⟩
    exact ⟨⟨k, by ring⟩, by omega⟩
  · rintro ⟨⟨c, rfl⟩, hlt⟩
    exact ⟨c, by omega, by ring⟩

theorem bitmapRowCmds_length (cX cY sc : ℚ) (y : ℕ) :
    ∀ segs : List (ℕ × ℕ),
      (bitmapRowCmds cX cY sc y segs).length = 2 * segs.length := by
  intro segs
  induction segs with
  | nil => rfl
  | cons seg segs ih =>
    show (_ :: _ :: bitmapRowCmds cX cY sc y segs).length = 2 * (segs.length + 1)
    rw [List.length_cons, List.length_cons, ih]
    ring

theorem bitmapRowCmds_decomp (cX cY sc : ℚ) (y : ℕ) :
    ∀ (segs : List (ℕ × ℕ)) (k : ℕ) (hk : k < segs.length),
      bitmapRowCmds cX cY sc y segs
        = bitmapRowCmds cX cY sc y (segs.take k)
          ++ ([BCmd.bmove ((((segs.get ⟨k, hk⟩).1 : ℚ) - cX) * sc * (4/5),
                ((y : ℚ) - cY) * sc * (4/5)),
              BCmd.bstitch ((((segs.get ⟨k, hk⟩).2 : ℚ) - cX) * sc * (4/5),
                ((y : ℚ) - cY) * sc * (4/5))]
            ++ bitmapRowCmds cX cY sc y (segs.drop (k + 1))) := by
  intro segs
  induction segs with
  | nil => intro k hk; exact absurd hk (by simp)
  | cons seg segs ih =>
    intro k hk
    cases k with
    | zero => rfl
    | succ k' =>
      have hk' : k' < segs.length := Nat.lt_of_succ_lt_succ hk
      show (_ :: _ :: bitmapRowCmds cX cY sc y segs) = _
      rw [ih k' hk']
      rfl

/-- Claim C9: in the bitmap fill, every emitted run (edge-truncated runs
included) satisfies `x_start < x_end` and `x_end - x_start > 5`; rows are
scanned exactly at the multiples of the vertical stride 3 below the image
height; and each run contributes exactly one `Move` at its transformed
start and one `Stitch` at its transformed end, both at the same
transformed `y`. -/
theorem C9_bitmap_runs (img : ℕ → ℕ → ℕ × ℕ × ℕ) (w h y : ℕ) (sc : ℚ) :
    (∀ seg ∈ rowSegments img w y, seg.1 < seg.2 ∧ 5 < seg.2 - seg.1) ∧
    (y ∈ scanRows h 3 ↔ 3 ∣ y ∧ y < h) ∧
    (∀ (cX cY : ℚ) (segs : List (ℕ × ℕ)) (k : ℕ) (hk : k < segs.length),
      bitmapRowCmds cX cY sc y segs
        = bitmapRowCmds cX cY sc y (segs.take k)
          ++ ([BCmd.bmove ((((segs.get ⟨k, hk⟩).1 : ℚ) - cX) * sc * (4/5),
                ((y : ℚ) - cY) * sc * (4/5)),
              BCmd.bstitch ((((segs.get ⟨k, hk⟩).2 : ℚ) - cX) * sc * (4/5),
                ((y : ℚ) - cY) * sc * (4/5))]
            ++ bitmapRowCmds cX cY sc y (segs.drop (k + 1)))) ∧
    (∀ (cX cY : ℚ) (segs : List (ℕ × ℕ)),
      (bitmapRowCmds cX cY sc y segs).length = 2 * segs.length) :=
  ⟨rowSegments_inv img w y, mem_scanRows h y,
   fun cX cY segs k hk => bitmapRowCmds_decomp cX cY sc y segs k hk,
   fun cX cY segs => bitmapRowCmds_length cX cY sc y segs⟩

/-- Witness for C9 on a concrete all-blue 8-pixel row: the single
edge-truncated run `(0, 8)` satisfies the invariants, and row 3 is
scanned for image height 9. -/
theorem C9_bitmap_runs_w :
    ((0, 8) ∈ rowSegments imgBlue 8 0) ∧
    ((0, 8).1 < (0, 8).2 ∧ 5 < (0, 8).2 - (0, 8).1) ∧
    (3 ∈ scanRows 9 3) := by
  have hm : (0, 8) ∈ rowSegments imgBlue 8 0 := by decide
  exact ⟨hm, (C9_bitmap_runs imgBlue 8 9 0 1).1 (0, 8) hm,
    (C9_bitmap_runs imgBlue 8 9 3 1).2.1.mpr ⟨⟨1, by norm_num⟩, by norm_num⟩⟩

/-! ## Claim C5: two-shape fill-then-stroke scenario -/

theorem samplePts_exists_cons (pt : ℝ → ℝ × ℝ) (cx cy sc : ℝ) (n : ℕ) :
    ∃ q rs, samplePts pt cx cy sc n = q :: rs := by
  unfold samplePts
  rw [List.range_succ_eq_map, List.map_cons]
  exact ⟨_, _, rfl⟩

theorem samplePts_length (pt : ℝ → ℝ × ℝ) (cx cy sc : ℝ) (n : ℕ) :
    (samplePts pt cx cy sc n).length = n + 1 := by
  unfold samplePts
  rw [List.length_map, List.length_range]

theorem flatten_filter_nonempty (l : List (List Cmd)) :
    ((l.filter (fun g => !g.isEmpty)).flatten = l.flatten) := by
  induction l with
  | nil => rfl
  | cons g l ih =>
    cases g with
    | nil => simpa [List.filter_cons] using ih
    | cons c cs => simp [List.filter_cons, ih]

theorem concentric_groups (pts : List (ℝ × ℝ)) :
    ∃ gs : List (List Cmd), (∀ g ∈ gs, moveStitchGroup g) ∧
      gs.flatten = concentricCmds pts 8 3 := by
  refine ⟨((List.range 8).map (fun k =>
      layerCmdsOf (layerPts (centroidPt pts) ((k : ℝ) * 3) pts))).filter
        (fun g => !g.isEmpty), ?_, ?_⟩
  · intro g hg
    obtain ⟨hmem, hne⟩ := List.mem_filter.mp hg
    obtain ⟨k, _, hk⟩ := List.mem_map.mp hmem
    rcases layerCmdsOf_shape (layerPts (centroidPt pts) ((k : ℝ) * 3) pts)
      with hnil | hgrp
    · exfalso
      rw [← hk, hnil] at hne
      simp at hne
    · rw [← hk]
      exact hgrp
  · rw [flatten_filter_nonempty, ← flatMap_eq_map_flatten]
    rfl

theorem fillPart_eval (step sc : ℝ) (i : ℕ) (sh : Shape) (st : ConvSt)
    (hf : colorPresent sh.fill = true) (q : ℝ × ℝ) (rs : List (ℝ × ℝ))
    (hsp : samplePts sh.point st.cx st.cy sc (nSamples sh.len step 20) = q :: rs) :
    fillPart step sc i sh st
      = (ConvSt.mk (centroidPt (q :: rs)).1 (centroidPt (q :: rs)).2
          (st.total + stitchCount (concentricCmds (q :: rs) 8 3)),
         Cmd.colorChange :: concentricCmds (q :: rs) 8 3,
         [mkFillThread i (sh.fill.getD "none")
           (resolveColor (sh.fill.getD "none"))]) := by
  simp only [fillPart, hf, hsp, if_true]

theorem fillPart_off (step sc : ℝ) (i : ℕ) (sh : Shape) (st : ConvSt)
    (hf : colorPresent sh.fill = false) :
    fillPart step sc i sh st = (st, [], []) := by
  simp only [fillPart, hf, Bool.false_eq_true, if_false]

theorem strokePart_eval (step sc : ℝ) (i : ℕ) (sh : Shape) (st : ConvSt)
    (hs : colorPresent sh.stroke = true) (q : ℝ × ℝ) (rs : List (ℝ × ℝ))
    (hsp : samplePts sh.point st.cx st.cy sc (nSamples sh.len step 2) = q :: rs) :
    strokePart step sc i sh st
      = (ConvSt.mk st.cx st.cy (st.total + rs.length),
         Cmd.colorChange :: Cmd.move q :: rs.map Cmd.stitch,
         [mkStrokeThread i (sh.stroke.getD "none")
           (resolveColor (sh.stroke.getD "none"))]) := by
  simp only [strokePart, hs, hsp, if_true]

theorem strokePart_off (step sc : ℝ) (i : ℕ) (sh : Shape) (st : ConvSt)
    (hs : colorPresent sh.stroke = false) :
    strokePart step sc i sh st = (st, [], []) := by
  simp only [strokePart, hs, Bool.false_eq_true, if_false]

theorem processShape_nz (step sc : ℝ) (i : ℕ) (sh : Shape) (st : ConvSt)
    (h0 : sh.len ≠ 0) :
    processShape step sc i sh st
      = ((strokePart step sc i sh (fillPart step sc i sh st).1).1,
         (fillPart step sc i sh st).2.1
           ++ (strokePart step sc i sh (fillPart step sc i sh st).1).2.1,
         (fillPart step sc i sh st).2.2
           ++ (strokePart step sc i sh (fillPart step sc i sh st).1).2.2) := by
  unfold processShape
  rw [if_neg h0]

/-- Claim C5 (amended): on two shapes, the first fill-only and the second
stroke-only (both of nonzero length), the conversion emits exactly:
`ColorChange` (with the first shape's fill thread descriptor), then one
`Move`-plus-`Stitch`es block per emitted concentric layer (zero or more
such blocks, one per retained layer — not exactly one as the claim
states), then `ColorChange` (with the second shape's stroke thread
descriptor), one `Move`, one or more `Stitch`es, and the terminal `End`. -/
theorem C5_two_shape_sequence (step sc : ℝ) (A B : Shape)
    (hA : A.len ≠ 0) (hB : B.len ≠ 0)
    (hAf : colorPresent A.fill = true) (hAs : colorPresent A.stroke = false)
    (hBf : colorPresent B.fill = false) (hBs : colorPresent B.stroke = true) :
    ∃ (gs : List (List Cmd)) (p₀ : ℝ × ℝ) (ss : List (ℝ × ℝ)) (tot : ℕ),
      (∀ g ∈ gs, moveStitchGroup g) ∧ ss ≠ [] ∧
      convert step sc [A, B] = Except.ok
        (Cmd.colorChange :: (gs.flatten
          ++ Cmd.colorChange :: Cmd.move p₀ :: (ss.map Cmd.stitch ++ [Cmd.patEnd])),
         [mkFillThread 0 (A.fill.getD "none") (resolveColor (A.fill.getD "none")),
          mkStrokeThread 1 (B.stroke.getD "none")
            (resolveColor (B.stroke.getD "none"))],
         tot) := by
  obtain ⟨qA, rsA, hspA⟩ :=
    samplePts_exists_cons A.point initState.cx initState.cy sc (nSamples A.len step 20)
  have hPA : processShape step sc 0 A initState
      = (ConvSt.mk (centroidPt (qA :: rsA)).1 (centroidPt (qA :: rsA)).2
          (initState.total + stitchCount (concentricCmds (qA :: rsA) 8 3)),
         Cmd.colorChange :: concentricCmds (qA :: rsA) 8 3,
         [mkFillThread 0 (A.fill.getD "none")
           (resolveColor (A.fill.getD "none"))]) := by
    rw [processShape_nz step sc 0 A initState hA,
      fillPart_eval step sc 0 A initState hAf qA rsA hspA]
    rw [strokePart_off step sc 0 A _ hAs]
    simp
  have hPB : ∀ st : ConvSt, ∃ (qB : ℝ × ℝ) (rsB : List (ℝ × ℝ)), rsB ≠ [] ∧
      processShape step sc 1 B st
        = (ConvSt.mk st.cx st.cy (st.total + rsB.length),
           Cmd.colorChange :: Cmd.move qB :: rsB.map Cmd.stitch,
           [mkStrokeThread 1 (B.stroke.getD "none")
             (resolveColor (B.stroke.getD "none"))]) := by
    intro st
    obtain ⟨qB, rsB, hspB⟩ :=
      samplePts_exists_cons B.point st.cx st.cy sc (nSamples B.len step 2)
    have hl := samplePts_length B.point st.cx st.cy sc (nSamples B.len step 2)
    rw [hspB] at hl
    have hlenB : rsB.length = nSamples B.len step 2 := by
      simpa using hl
    have hneB : rsB ≠ [] := by
      intro hcon
      rw [hcon] at hlenB
      have h2 : 2 ≤ nSamples B.len step 2 := le_max_right _ _
      simp at hlenB
      omega
    refine ⟨qB, rsB, hneB, ?_⟩
    rw [processShape_nz step sc 1 B st hB, fillPart_off step sc 1 B st hBf]
    rw [strokePart_eval step sc 1 B st hBs qB rsB hspB]
    simp
  obtain ⟨qB, rsB, hneB, hPBst⟩ := hPB
    (ConvSt.mk (centroidPt (qA :: rsA)).1 (centroidPt (qA :: rsA)).2
      (initState.total + stitchCount (concentricCmds (qA :: rsA) 8 3)))
  obtain ⟨gs, hgs, hflat⟩ := concentric_groups (qA :: rsA)
  refine ⟨gs, qB, rsB,
    initState.total + stitchCount (concentricCmds (qA :: rsA) 8 3) + rsB.length,
    hgs, hneB, ?_⟩
  unfold convert
  rw [if_neg (by simp : ¬(([A, B] : List Shape).isEmpty = true))]
  have hGo : convertGo step sc 0 initState [A, B]
      = ((convertGo step sc 1 (processShape step sc 0 A initState).1 [B]).1,
         (processShape step sc 0 A initState).2.1
           ++ (convertGo step sc 1 (processShape step sc 0 A initState).1 [B]).2.1,
         (processShape step sc 0 A initState).2.2
           ++ (convertGo step sc 1 (processShape step sc 0 A initState).1 [B]).2.2) :=
    rfl
  have hGo1 : ∀ st : ConvSt, convertGo step sc 1 st [B]
      = ((processShape step sc 1 B st).1,
         (processShape step sc 1 B st).2.1 ++ [],
         (processShape step sc 1 B st).2.2 ++ []) := fun st => rfl
  rw [hGo, hPA]
  rw [hGo1, hPBst]
  simp [hflat]

/-! ## Concrete pipeline evaluations (degenerate constant-point fills) -/

theorem filterMap_none_replicate {α β : Type} (f : α → Option β) (a : α)
    (hf : f a = none) : ∀ n, (List.replicate n a).filterMap f = [] := by
  intro n
  induction n with
  | zero => rfl
  | succ n ih => simp [List.replicate_succ, List.filterMap_cons, hf, ih]

theorem centroid_replicate (n : ℕ) (hn : n ≠ 0) (p : ℝ × ℝ) :
    centroidPt (List.replicate n p) = p := by
  unfold centroidPt
  rw [List.map_replicate, List.map_replicate, List.sum_replicate,
    List.sum_replicate, List.length_replicate, nsmul_eq_mul, nsmul_eq_mul]
  have hn' : (n : ℝ) ≠ 0 := Nat.cast_ne_zero.mpr hn
  rw [mul_div_cancel_left₀ _ hn', mul_div_cancel_left₀ _ hn']

theorem offPt_self (c : ℝ × ℝ) (o : ℝ) (ho : 0 ≤ o) : offPt c o c = none := by
  apply offPt_none_of_le
  have h0 : ptDist c c = 0 := by
    unfold ptDist
    norm_num [Real.sqrt_zero]
  rw [h0]
  exact ho

theorem layer_replicate_self (p : ℝ × ℝ) (k n : ℕ) :
    layerPts p ((k : ℝ) * 3) (List.replicate n p) = [] :=
  filterMap_none_replicate _ _ (offPt_self p _ (by positivity)) n

theorem concentric_replicate (p : ℝ × ℝ) (n : ℕ) (hn : n ≠ 0) :
    concentricCmds (List.replicate n p) 8 3 = [] := by
  unfold concentricCmds
  simp only [centroid_replicate n hn p, layer_replicate_self]
  simp [layerCmdsOf]

theorem samplePts_const (c : ℝ × ℝ) (cx cy sc : ℝ) (n : ℕ) (pt : ℝ → ℝ × ℝ)
    (hpt : ∀ t, pt t = c) :
    samplePts pt cx cy sc n = List.replicate (n + 1) (transf cx cy sc c) := by
  unfold samplePts
  have he : (fun (j : ℕ) => transf cx cy sc (pt ((j : ℝ) / (n : ℝ))))
      = fun (_ : ℕ) => transf cx cy sc c := by
    funext j
    rw [hpt]
  rw [he, List.map_const', List.length_range]

theorem processShape_constFill (step sc : ℝ) (i : ℕ) (sh : Shape) (st : ConvSt)
    (h0 : sh.len ≠ 0) (hf : colorPresent sh.fill = true)
    (hs : colorPresent sh.stroke = false) (c : ℝ × ℝ)
    (hpt : ∀ t, sh.point t = c) :
    processShape step sc i sh st
      = (ConvSt.mk (transf st.cx st.cy sc c).1 (transf st.cx st.cy sc c).2
          st.total,
         [Cmd.colorChange],
         [mkFillThread i (sh.fill.getD "none")
           (resolveColor (sh.fill.getD "none"))]) := by
  have hsp : samplePts sh.point st.cx st.cy sc (nSamples sh.len step 20)
      = transf st.cx st.cy sc c
        :: List.replicate (nSamples sh.len step 20) (transf st.cx st.cy sc c) := by
    rw [samplePts_const c st.cx st.cy sc (nSamples sh.len step 20) sh.point hpt]
    rfl
  rw [processShape_nz step sc i sh st h0,
    fillPart_eval step sc i sh st hf _ _ hsp,
    strokePart_off step sc i sh _ hs]
  have hrep : transf st.cx st.cy sc c
      :: List.replicate (nSamples sh.len step 20) (transf st.cx st.cy sc c)
      = List.replicate (nSamples sh.len step 20 + 1) (transf st.cx st.cy sc c) :=
    rfl
  rw [hrep, centroid_replicate _ (Nat.succ_ne_zero _) _,
    concentric_replicate _ _ (Nat.succ_ne_zero _)]
  simp [stitchCount]

theorem processShape_shapeA :
    processShape 3 1 0 shapeA initState
      = (ConvSt.mk 5 0 0, [Cmd.colorChange],
         [mkFillThread 0 (shapeA.fill.getD "none")
           (resolveColor (shapeA.fill.getD "none"))]) := by
  have h := processShape_constFill 3 1 0 shapeA initState
    (by norm_num [shapeA]) (by decide) (by decide)
    ((1881 : ℝ)/2, 1104) (fun t => rfl)
  rw [h]
  norm_num [transf, initState, Prod.ext_iff]

theorem processShape_shapeA' :
    processShape 3 1 0 shapeA' initState
      = (ConvSt.mk 10 0 0, [Cmd.colorChange],
         [mkFillThread 0 (shapeA'.fill.getD "none")
           (resolveColor (shapeA'.fill.getD "none"))]) := by
  have h := processShape_constFill 3 1 0 shapeA' initState
    (by norm_num [shapeA']) (by decide) (by decide)
    ((1891 : ℝ)/2, 1104) (fun t => rfl)
  rw [h]
  norm_num [transf, initState, Prod.ext_iff]

theorem nSamples_shapeB : nSamples shapeB.len 3 2 = 2 := by
  unfold nSamples
  rw [show shapeB.len = (1 : ℝ) from rfl, show ⌊(1 : ℝ)/3⌋ = 0 by norm_num]
  decide

theorem samplePts_shapeB (v : ℝ) :
    samplePts shapeB.point v 0 1 (nSamples shapeB.len 3 2)
      = ((1871 : ℝ)/2 - v, (1104 : ℝ))
        :: [((936 : ℝ) - v, (1104 : ℝ)), ((1873 : ℝ)/2 - v, (1104 : ℝ))] := by
  rw [nSamples_shapeB]
  unfold samplePts transf
  rw [show (2 : ℕ) + 1 = 3 from rfl]
  rw [show List.range 3 = [0, 1, 2] from rfl]
  simp only [List.map_cons, List.map_nil, shapeB]
  norm_num

theorem processShape_shapeB (v : ℝ) :
    processShape 3 1 1 shapeB (ConvSt.mk v 0 0)
      = (ConvSt.mk v 0 2,
         [Cmd.colorChange, Cmd.move ((1871 : ℝ)/2 - v, 1104),
          Cmd.stitch ((936 : ℝ) - v, 1104),
          Cmd.stitch ((1873 : ℝ)/2 - v, 1104)],
         [mkStrokeThread 1 (shapeB.stroke.getD "none")
           (resolveColor (shapeB.stroke.getD "none"))]) := by
  have hsp : samplePts shapeB.point (ConvSt.mk v 0 0).cx (ConvSt.mk v 0 0).cy 1
      (nSamples shapeB.len 3 2)
      = ((1871 : ℝ)/2 - v, (1104 : ℝ))
        :: [((936 : ℝ) - v, (1104 : ℝ)), ((1873 : ℝ)/2 - v, (1104 : ℝ))] :=
    samplePts_shapeB v
  rw [processShape_nz 3 1 1 shapeB _ (by norm_num [shapeB]),
    fillPart_off 3 1 1 shapeB _ (by decide),
    strokePart_eval 3 1 1 shapeB _ (by decide) _ _ hsp]
  simp

theorem convertAB_eval :
    convert 3 1 [shapeA, shapeB] = Except.ok
      ([Cmd.colorChange, Cmd.colorChange, Cmd.move ((1861 : ℝ)/2, 1104),
        Cmd.stitch ((931 : ℝ), 1104), Cmd.stitch ((1863 : ℝ)/2, 1104),
        Cmd.patEnd],
       [mkFillThread 0 (shapeA.fill.getD "none")
          (resolveColor (shapeA.fill.getD "none")),
        mkStrokeThread 1 (shapeB.stroke.getD "none")
          (resolveColor (shapeB.stroke.getD "none"))],
       2) := by
  unfold convert
  rw [if_neg (by simp : ¬(([shapeA, shapeB] : List Shape).isEmpty = true))]
  have hGo : convertGo 3 1 0 initState [shapeA, shapeB]
      = ((convertGo 3 1 1 (processShape 3 1 0 shapeA initState).1 [shapeB]).1,
         (processShape 3 1 0 shapeA initState).2.1
           ++ (convertGo 3 1 1 (processShape 3 1 0 shapeA initState).1 [shapeB]).2.1,
         (processShape 3 1 0 shapeA initState).2.2
           ++ (convertGo 3 1 1 (processShape 3 1 0 shapeA initState).1 [shapeB]).2.2) :=
    rfl
  have hGo1 : ∀ st : ConvSt, convertGo 3 1 1 st [shapeB]
      = ((processShape 3 1 1 shapeB st).1,
         (processShape 3 1 1 shapeB st).2.1 ++ [],
         (processShape 3 1 1 shapeB st).2.2 ++ []) := fun st => rfl
  rw [hGo, processShape_shapeA]
  dsimp only
  rw [hGo1, processShape_shapeB 5]
  norm_num

/-- Counterexample to C5 as stated: on the concrete fill-only shape
`shapeA` (degenerate constant contour, so no concentric layer reaches 4
points and the fill emits no `Move`/`Stitch` at all) followed by the
stroke-only `shapeB`, the emitted sequence is
`ColorChange, ColorChange, Move, Stitch, Stitch, End`, which does not
match the claimed exact shape
`ColorChange, Move, Stitch+, ColorChange, Move, Stitch+, End`. -/
theorem C5_two_shape_sequence_cex :
    colorPresent shapeA.fill = true ∧ colorPresent shapeA.stroke = false ∧
    colorPresent shapeB.fill = false ∧ colorPresent shapeB.stroke = true ∧
    shapeA.len ≠ 0 ∧ shapeB.len ≠ 0 ∧
    ¬ scenario3Shape (cmdsOf 3 1 [shapeA, shapeB]) := by
  refine ⟨by decide, by decide, by decide, by decide,
    by norm_num [shapeA], by norm_num [shapeB], ?_⟩
  have hc : cmdsOf 3 1 [shapeA, shapeB]
      = [Cmd.colorChange, Cmd.colorChange, Cmd.move ((1861 : ℝ)/2, 1104),
         Cmd.stitch ((931 : ℝ), 1104), Cmd.stitch ((1863 : ℝ)/2, 1104),
         Cmd.patEnd] := by
    unfold cmdsOf
    rw [convertAB_eval]
  rw [hc]
  rintro ⟨p₁, p₂, s₁, s₂, hne₁, hne₂, heq⟩
  simp at heq

/-- Witness for C5 (amended) at the concrete two-shape input
`[shapeA, shapeB]`. -/
theorem C5_two_shape_sequence_w :
    shapeA.len ≠ 0 ∧ shapeB.len ≠ 0 ∧
    colorPresent shapeA.fill = true ∧ colorPresent shapeA.stroke = false ∧
    colorPresent shapeB.fill = false ∧ colorPresent shapeB.stroke = true ∧
    (∃ (gs : List (List Cmd)) (p₀ : ℝ × ℝ) (ss : List (ℝ × ℝ)) (tot : ℕ),
      (∀ g ∈ gs, moveStitchGroup g) ∧ ss ≠ [] ∧
      convert 3 1 [shapeA, shapeB] = Except.ok
        (Cmd.colorChange :: (gs.flatten
          ++ Cmd.colorChange :: Cmd.move p₀ :: (ss.map Cmd.stitch ++ [Cmd.patEnd])),
         [mkFillThread 0 (shapeA.fill.getD "none")
           (resolveColor (shapeA.fill.getD "none")),
          mkStrokeThread 1 (shapeB.stroke.getD "none")
            (resolveColor (shapeB.stroke.getD "none"))],
         tot)) := by
  have h1 : shapeA.len ≠ 0 := by norm_num [shapeA]
  have h2 : shapeB.len ≠ 0 := by norm_num [shapeB]
  have h3 : colorPresent shapeA.fill = true := by decide
  have h4 : colorPresent shapeA.stroke = false := by decide
  have h5 : colorPresent shapeB.fill = false := by decide
  have h6 : colorPresent shapeB.stroke = true := by decide
  exact ⟨h1, h2, h3, h4, h5, h6,
    C5_two_shape_sequence 3 1 shapeA shapeB h1 h2 h3 h4 h5 h6⟩

/-! ## Claim C2: cross-shape interference through the mutated center -/

/-- Claim C2 fails on the code (code bug): the fill branch's
`center_x = sum(...) / len(...)` reassignment overwrites the canvas
center, so the commands emitted for the second (stroke-only) shape
`shapeB` change when only the first shape's path is translated
(`shapeA` vs `shapeA'`, identical attributes).  This refutes
noninterference across shapes. -/
theorem C2_center_leak :
    shapeA.stroke = shapeA'.stroke ∧ shapeA.fill = shapeA'.fill ∧
    shapeA.len = shapeA'.len ∧
    (processShape 3 1 1 shapeB (processShape 3 1 0 shapeA initState).1).2.1
      ≠ (processShape 3 1 1 shapeB (processShape 3 1 0 shapeA' initState).1).2.1 := by
  refine ⟨rfl, rfl, rfl, ?_⟩
  rw [processShape_shapeA, processShape_shapeA']
  dsimp only
  rw [processShape_shapeB 5, processShape_shapeB 10]
  intro hcon
  simp only [List.cons.injEq] at hcon
  have hx := hcon.2.1
  rw [Cmd.move.injEq, Prod.ext_iff] at hx
  norm_num at hx
